import Mathlib

/-!
Verification of the mongo_b2_dump backup pipeline.

This development embeds the core components of the repository in Lean:

* `BsonUtil` — the streaming BSON→JSONL transcoder
  (`BsonToJsonlTransform` in `src/utils/bson.util.ts`) and the chunking
  writer (`ChunkingTransform`), together with `convertBsonToJsonlChunks`.
* `B2Service` — the retry loop of `uploadFile`, the error classifier
  `handleUploadError`, the constructor's `maxRetries` default, the
  multi-part upload plan, and the `listExistingFiles` pagination loop
  (`src/services/b2.service.ts`).
* `BackupService` — the diff engine `getNewFiles`
  (`src/services/backup.service.ts`).

Machine integers of the source are modelled as `Nat`/`Int`; byte buffers
as `List Nat`; JavaScript strings as `List Char` where character-level
reasoning is needed.  External collaborators (the BSON parser and JSON
encoder, the SHA-1 hash, the remote HTTP endpoints, the filesystem) are
abstracted as explicit functional parameters, so every definition stays
executable.
-/

namespace BsonUtil

/-- Errors of the transcode pipeline.  `corrupt` models
`new Error("Invalid BSON document size: ...")` (the spec's
`CorruptStreamError`), `parseFail` models
`new Error("Failed to parse BSON document ...")`, and `truncated` models
`new Error("Incomplete BSON document at end of file")` (the spec's
`TruncatedStreamError`). -/
inductive TranscodeError where
  | corrupt (size : Int)
  | parseFail
  | truncated
deriving DecidableEq, Repr

/-- `buffer.readInt32LE(pos)` of Node, at offset 0 of the given buffer:
a signed 32-bit little-endian read of the first four bytes.  The
transform only reads a length when at least 4 bytes are buffered, so the
catch-all case is never exercised there. -/
def readInt32LE : List Nat → Int
  | b0 :: b1 :: b2 :: b3 :: _ =>
    if b0 + 256 * b1 + 65536 * b2 + 16777216 * b3 < 2147483648 then
      ((b0 + 256 * b1 + 65536 * b2 + 16777216 * b3 : Nat) : Int)
    else
      ((b0 + 256 * b1 + 65536 * b2 + 16777216 * b3 : Nat) : Int) - 4294967296
  | _ => 0

/-- The `16 * 1024 * 1024` upper bound on a document size
(`// Max 16MB per document`). -/
def maxDocSize : Int := 16 * 1024 * 1024

/-- One pushed output line: `JSON.stringify(doc) + '\n'`, with the
deterministic composition `JSON.stringify ∘ BSON.deserialize` abstracted
as the pure function `stringify` on the document's bytes. -/
def outLine (stringify : List Nat → List Char) (doc : List Nat) : List Char :=
  stringify doc ++ ['\n']

/-- The record-extraction loop of `BsonToJsonlTransform._transform`.

The source keeps an absolute `position` into `this.buffer` and slices
the consumed prefix off at the end of the call; here the consumed prefix
is dropped eagerly, so `buffer` is always the un-consumed suffix
(`this.buffer.slice(this.position)`).  `parse doc = true` models
`BSON.deserialize(docBuffer)` succeeding.  Returns the pushed lines and
the left-over buffer. -/
def procBuf (parse : List Nat → Bool) (stringify : List Nat → List Char)
    (buffer : List Nat) :
    Except TranscodeError (List (List Char) × List Nat) :=
  if h4 : 4 ≤ buffer.length then
    if hval : readInt32LE buffer < 5 ∨ maxDocSize < readInt32LE buffer then
      .error (.corrupt (readInt32LE buffer))
    else if hbrk : buffer.length < (readInt32LE buffer).toNat then
      .ok ([], buffer)
    else if parse (buffer.take (readInt32LE buffer).toNat) then
      match procBuf parse stringify (buffer.drop (readInt32LE buffer).toNat) with
      | .error e => .error e
      | .ok (out, rest) =>
          .ok (outLine stringify (buffer.take (readInt32LE buffer).toNat) :: out, rest)
    else .error .parseFail
  else .ok ([], buffer)
termination_by buffer.length
decreasing_by
  simp only [List.length_drop]
  omega

/-- `BsonToJsonlTransform._flush`: error out iff un-consumed bytes remain. -/
def flushBuf (buffer : List Nat) : Except TranscodeError Unit :=
  if 0 < buffer.length then .error .truncated else .ok ()

/-- Feeding a sequence of read chunks through the transform: each chunk
is appended to the carried-over buffer and processed, and the stream is
flushed at end-of-input.  Returns all pushed lines in order. -/
def runChunks (parse : List Nat → Bool) (stringify : List Nat → List Char) :
    List Nat → List (List Nat) → Except TranscodeError (List (List Char))
  | st, [] =>
    match flushBuf st with
    | .error e => .error e
    | .ok _ => .ok []
  | st, c :: cs =>
    match procBuf parse stringify (st ++ c) with
    | .error e => .error e
    | .ok (out, rest) => (runChunks parse stringify rest cs).map (out ++ ·)

/-- A whole transcode run starting from the empty accumulation buffer. -/
def runTranscode (parse : List Nat → Bool) (stringify : List Nat → List Char)
    (chunks : List (List Nat)) : Except TranscodeError (List (List Char)) :=
  runChunks parse stringify [] chunks

/-- The 4-byte little-endian encoding of a record length. -/
def encLen (n : Nat) : List Nat :=
  [n % 256, n / 256 % 256, n / 65536 % 256, n / 16777216 % 256]

/-- A well-formed length-prefixed record: its declared length equals its
actual length, lies in the valid range, and its payload parses. -/
def ValidRecord (parse : List Nat → Bool) (r : List Nat) : Prop :=
  5 ≤ r.length ∧ r.length ≤ 16777216 ∧ r.take 4 = encLen r.length ∧ parse r = true

/-- A truncated record fragment, as the spec describes end-of-input
corruption: either too short to even hold the 4-byte length prefix, or
carrying a valid declared length that exceeds the bytes present. -/
def Incomplete (frag : List Nat) : Prop :=
  frag.length < 4 ∨
    (5 ≤ readInt32LE frag ∧ readInt32LE frag ≤ maxDocSize ∧
      (frag.length : Int) < readInt32LE frag)

/-- The default `CHUNK_SIZE = 10 * 1024 * 1024` of `bson.util.ts`. -/
def defaultChunkSize : Nat := 10 * 1024 * 1024

/-- The loop body of `ChunkingTransform._transform` over the remaining
incoming units, plus the `_flush` close of the final file.  `cur` is the
list of units written to the currently open chunk file and `size` is
`this.currentSize` (always the total byte length of `cur`).  A new file
is opened exactly when `currentSize >= chunkSize`; the incoming unit is
then written whole to the (possibly fresh) current file. -/
def chunkGo {α : Type} (chunkSize : Nat) (cur : List (List α)) (size : Nat) :
    List (List α) → List (List (List α))
  | [] => [cur]
  | u :: us =>
    if chunkSize ≤ size then cur :: chunkGo chunkSize [u] u.length us
    else chunkGo chunkSize (cur ++ [u]) (size + u.length) us

/-- All chunk files produced by a `ChunkingTransform` run over a list of
incoming units (each unit is one buffer passed to `_transform`): each
file is represented by the list of units written into it.  With no
input, `this.currentStream` is still `null` at `_flush` and no file is
ever created. -/
def chunkFiles {α : Type} (chunkSize : Nat) : List (List α) → List (List (List α))
  | [] => []
  | u :: us => chunkGo chunkSize [u] u.length us

/-- The byte size of a produced chunk file. -/
def fileSize {α : Type} (f : List (List α)) : Nat := (f.map List.length).sum

/-- `convertBsonToJsonlChunks`: pipe the input file's read chunks
through `BsonToJsonlTransform` and `ChunkingTransform`; on success
resolve with the produced chunk paths
`{outputDir}/{baseName}.jsonl.part{N}`, `N` counted from 1.  The chunk
files themselves are returned alongside for specification purposes. -/
def convertBsonToJsonlChunks (parse : List Nat → Bool)
    (stringify : List Nat → List Char) (chunkSize : Nat)
    (outputDir baseName : String) (input : List (List Nat)) :
    Except TranscodeError (List String × List (List (List Char))) :=
  match runTranscode parse stringify input with
  | .error e => .error e
  | .ok lines =>
    let files := chunkFiles chunkSize lines
    .ok ((List.range files.length).map
          (fun i => outputDir ++ "/" ++ baseName ++ ".jsonl.part" ++ toString (i + 1)),
         files)

end BsonUtil

namespace B2Service

/-- The classified upload errors that `handleUploadError` distinguishes:
HTTP 400 with code `bad_request`, HTTP 400 with code
`expired_auth_token`, HTTP 401, HTTP 429, HTTP 5xx, and everything else
(network or unknown errors). -/
inductive UploadErrKind where
  | badRequest
  | expiredAuthToken
  | unauthorized
  | rateLimited
  | serverError (status : Nat)
  | network
deriving DecidableEq, Repr

/-- `B2Service.handleUploadError`, reduced to its returned
retry decision: only a 400 `bad_request` is non-retryable; expired
tokens and 401 re-authenticate and retry, 429 and 5xx retry with
backoff, and network/unknown errors retry. -/
def handleUploadError : UploadErrKind → Bool
  | .badRequest => false
  | _ => true

/-- Result of a whole `uploadFile` call.  `ok` is the returned `B2File`
value; `noRetry` is the thrown
`Upload failed and should not be retried` error; `exhausted` is the
final `Failed to upload file after ... retries` `B2Error` (the spec's
`UploadError`), carrying `lastError`. -/
inductive UploadOutcome (R : Type) where
  | ok (r : R)
  | noRetry (e : UploadErrKind)
  | exhausted (lastError : Option UploadErrKind)
deriving DecidableEq, Repr

/-- The `while (retries <= this.maxRetries)` loop of
`B2Service.uploadFile`.  `att n` is the outcome of the attempt made in
the iteration with `retries = n` (the whole `try` body: stat, upload
URL/part requests, upload, finish).  `fuel = maxRetries + 1 - r`
counts the iterations the loop condition still allows; `fuel = 0` in
the failure branch is exactly `retries < maxRetries` being false, which
`break`s out to the final `throw`.  The second component counts the
underlying attempts made. -/
def uploadGo {R : Type} (att : Nat → Except UploadErrKind R) :
    Nat → Nat → Option UploadErrKind → UploadOutcome R × Nat
  | r, 0, lastError => (.exhausted lastError, r)
  | r, fuel + 1, _ =>
    match att r with
    | .ok v => (.ok v, r + 1)
    | .error e =>
      if handleUploadError e then
        if fuel = 0 then (.exhausted (some e), r + 1)
        else uploadGo att (r + 1) fuel (some e)
      else (.noRetry e, r + 1)

/-- `B2Service.uploadFile` retry behaviour: run the loop from
`retries = 0` with `lastError = null`. -/
def uploadFile {R : Type} (att : Nat → Except UploadErrKind R) (maxRetries : Nat) :
    UploadOutcome R × Nat :=
  uploadGo att 0 (maxRetries + 1) none

/-- The class field initializer
`private readonly maxRetries: number = 5; // Increased from 3 to 5`. -/
def maxRetriesFieldInit : Nat := 5

/-- The constructor parameter default `maxRetries: number = 3`. -/
def ctorMaxRetriesDefault : Nat := 3

/-- The `maxRetries` value held by a freshly constructed `B2Service`:
TypeScript runs the field initializer first, then the constructor body
`this.maxRetries = maxRetries` overwrites it with the parameter (which
falls back to its own default when the caller passes no argument). -/
def constructedMaxRetries (arg : Option Nat) : Nat :=
  (fun _fieldInit fromParam => fromParam)
    maxRetriesFieldInit (arg.getD ctorMaxRetriesDefault)

/-- `private readonly CHUNK_SIZE = 100 * 1024 * 1024`, the single-shot
threshold and the part size of a large-file upload. -/
def uploadChunkSize : Nat := 100 * 1024 * 1024

/-- `const totalParts = Math.ceil(fileSize / this.CHUNK_SIZE)`. -/
def totalParts (fileSize : Nat) : Nat :=
  (fileSize + uploadChunkSize - 1) / uploadChunkSize

/-- One `b2_upload_part` request as issued by the large-file loop:
its 1-based part number, its byte count `end - start`, and the SHA-1 it
carries, where `sha start end` abstracts hashing the file bytes in
`[start, end)`. -/
structure PartUpload (Sh : Type) where
  partNumber : Nat
  size : Nat
  sha1 : Sh
deriving DecidableEq, Repr

/-- What `uploadFile` does on the wire for a file of `fileSize` bytes
(success path, no retries): a single-shot upload when
`fileSize <= CHUNK_SIZE`, otherwise a large-file session uploading
parts `1..totalParts` in loop order and finishing with `partSha1Array`.
In the loop, `partSha1Array[partNumber - 1] = partResponse.contentSha1`
always writes at the current end of the array, so the array is built by
appending each part's digest in turn. -/
inductive UploadPlan (Sh : Type) where
  | singleShot (size : Nat)
  | large (parts : List (PartUpload Sh)) (partSha1Array : List Sh)
deriving DecidableEq, Repr

/-- The upload plan of `B2Service.uploadFile` for a given file size,
with the hash abstracted as `sha start end`. -/
def uploadFilePlan {Sh : Type} (sha : Nat → Nat → Sh) (fileSize : Nat) :
    UploadPlan Sh :=
  if fileSize ≤ uploadChunkSize then .singleShot fileSize
  else
    let acc := (List.range (totalParts fileSize)).foldl
      (fun (acc : List (PartUpload Sh) × List Sh) i =>
        let partNumber := i + 1
        let start := (partNumber - 1) * uploadChunkSize
        let fin := min (start + uploadChunkSize) fileSize
        let d := sha start fin
        (acc.1 ++ [⟨partNumber, fin - start, d⟩], acc.2 ++ [d]))
      ([], [])
    .large acc.1 acc.2

/-- A `b2_list_file_names` request: the continuation cursor sent as
`startFileName` (initially `null`) and the requested page bound
`maxFileCount`. -/
structure ListReq where
  startFileName : Option String
  maxFileCount : Nat
deriving DecidableEq, Repr

/-- Result of a whole `listExistingFiles` call.  `listError` is the
thrown `B2Error` (the spec's `ListError`); `outOfScript` marks a remote
whose modelled response script ran out while the loop still had a
cursor to follow (a non-terminating remote, outside every claim). -/
inductive ListOutcome (F : Type) where
  | ok (files : List F)
  | listError
  | outOfScript
deriving DecidableEq, Repr

/-- The `do ... while (nextFileName)` loop of
`B2Service.listExistingFiles`.  The remote is modelled by `script`, the
sequence of responses it gives to the successive page requests: either
a failure or a page `(files, nextFileName)`.  `acc` is the `files`
accumulator, `cursor` the current `nextFileName`, and `reqs` records
every request issued. -/
def listGo {F : Type} :
    List (Except Unit (List F × Option String)) → Option String → List F →
    List ListReq → ListOutcome F × List ListReq
  | [], _, _, reqs => (.outOfScript, reqs)
  | p :: ps, cursor, acc, reqs =>
    match p with
    | .error _ => (.listError, reqs ++ [⟨cursor, 1000⟩])
    | .ok (fs, next) =>
      match next with
      | none => (.ok (acc ++ fs), reqs ++ [⟨cursor, 1000⟩])
      | some s => listGo ps (some s) (acc ++ fs) (reqs ++ [⟨cursor, 1000⟩])

/-- `B2Service.listExistingFiles`: run the pagination loop from a `null`
cursor with empty accumulators, returning the outcome and the issued
requests. -/
def listExistingFiles {F : Type}
    (script : List (Except Unit (List F × Option String))) :
    ListOutcome F × List ListReq :=
  listGo script none [] []

end B2Service

namespace BackupService

/-- JavaScript strings, at character granularity. -/
abbrev Name := List Char

/-- The extension `'.bson'` passed to `path.basename`. -/
def bsonExt : Name := ['.', 'b', 's', 'o', 'n']

/-- `path.basename(localFile.name, '.bson')` for the slash-free names
produced by `readdir`: strip a trailing `.bson` unless the whole name
is the extension (Node keeps the name in that case). -/
def bsonBase (n : Name) : Name :=
  if n ≠ bsonExt ∧ bsonExt <:+ n then n.take (n.length - 5) else n

/-- `String.prototype.split('/')`, via an accumulator over the current
segment (in reverse). -/
def splitSlashAux : List Char → List Char → List Name
  | [], acc => [acc.reverse]
  | c :: rest, acc =>
    if c = '/' then acc.reverse :: splitSlashAux rest []
    else splitSlashAux rest (c :: acc)

/-- `remote.fileName.split('/')`. -/
def splitSlash (n : Name) : List Name := splitSlashAux n []

/-- The `remoteFolders` set of `BackupService.getNewFiles`: for every
remote file name, `split('/')`; when it has more than one part, record
`parts[0]`.  The `Set<string>` is modelled as a list queried by
membership. -/
def remoteFolders (remotes : List Name) : List Name :=
  remotes.foldl
    (fun acc r =>
      if 1 < (splitSlash r).length then acc ++ [(splitSlash r).headI] else acc)
    []

/-- The filter of `BackupService.getNewFiles`: keep a local file iff no
remote file has exactly its name and `remoteFolders` does not contain
its base name. -/
def getNewFiles (locals remotes : List Name) : List Name :=
  locals.filter fun n =>
    decide (¬ n ∈ remotes) && decide (¬ bsonBase n ∈ remoteFolders remotes)

end BackupService

/-!
## Lemmas about the record transcoder
-/

namespace BsonUtil

/-- A signed 32-bit read only looks at the first four bytes. -/
theorem readInt32LE_append (l t : List Nat) (h : 4 ≤ l.length) :
    readInt32LE (l ++ t) = readInt32LE l := by
  rcases l with _ | ⟨b0, l⟩; · simp at h
  rcases l with _ | ⟨b1, l⟩; · simp at h
  rcases l with _ | ⟨b2, l⟩; · simp at h
  rcases l with _ | ⟨b3, l⟩; · simp at h
  rfl

/-- A buffer whose first four bytes spell `encLen n` reads back `n`,
for `n` within the 16 MiB bound. -/
theorem readInt32LE_of_take4 (l : List Nat) (n : Nat) (h : l.take 4 = encLen n)
    (hn : n ≤ 16777216) (hl : 4 ≤ l.length) : readInt32LE l = (n : Int) := by
  rcases l with _ | ⟨b0, l⟩; · simp at hl
  rcases l with _ | ⟨b1, l⟩; · simp at hl
  rcases l with _ | ⟨b2, l⟩; · simp at hl
  rcases l with _ | ⟨b3, l⟩; · simp at hl
  have ht : (b0 :: b1 :: b2 :: b3 :: l).take 4 = [b0, b1, b2, b3] := rfl
  rw [ht, encLen] at h
  simp only [List.cons.injEq, and_true] at h
  obtain ⟨e0, e1, e2, e3⟩ := h
  subst e0; subst e1; subst e2; subst e3
  simp only [readInt32LE]
  have hA : n % 256 + 256 * (n / 256 % 256) + 65536 * (n / 65536 % 256) +
      16777216 * (n / 16777216 % 256) = n := by omega
  rw [hA, if_pos (by omega)]

/-- A valid record followed by anything reads back its own length. -/
theorem readInt32LE_valid (parse : List Nat → Bool) (r tail : List Nat)
    (hr : ValidRecord parse r) : readInt32LE (r ++ tail) = (r.length : Int) := by
  obtain ⟨h5, h16, htake, -⟩ := hr
  refine readInt32LE_of_take4 _ _ ?_ h16 (by simp [List.length_append]; omega)
  rw [List.take_append_of_le_length (by omega), htake]

/-- A buffer shorter than a length prefix is left untouched. -/
theorem procBuf_short (parse : List Nat → Bool) (stringify : List Nat → List Char)
    (buffer : List Nat) (h : buffer.length < 4) :
    procBuf parse stringify buffer = .ok ([], buffer) := by
  rw [procBuf.eq_def, dif_neg (by omega)]

/-- A proper prefix of a single valid record is left untouched: either
fewer than four bytes are buffered, or the declared length is read,
found valid, and found to exceed the buffered bytes. -/
theorem procBuf_stop (parse : List Nat → Bool) (stringify : List Nat → List Char)
    (r B : List Nat) (hr : ValidRecord parse r) (hpre : B <+: r)
    (hlt : B.length < r.length) :
    procBuf parse stringify B = .ok ([], B) := by
  by_cases hB4 : B.length < 4
  · exact procBuf_short parse stringify B hB4
  · obtain ⟨s, hs⟩ := hpre
    obtain ⟨h5, h16, htake, -⟩ := hr
    have hread : readInt32LE B = (r.length : Int) := by
      have happ := readInt32LE_append B s (by omega)
      rw [hs] at happ
      rw [← happ]
      exact readInt32LE_of_take4 r r.length htake h16 (by omega)
    rw [procBuf.eq_def, dif_pos (by omega)]
    rw [hread]
    rw [dif_neg (by simp only [maxDocSize]; omega)]
    rw [dif_pos (by simp only [Int.toNat_natCast]; omega)]

/-- Extracting one leading valid record from the buffer. -/
theorem procBuf_cons (parse : List Nat → Bool) (stringify : List Nat → List Char)
    (r tail : List Nat) (hr : ValidRecord parse r) :
    procBuf parse stringify (r ++ tail) =
      (procBuf parse stringify tail).map
        (fun p => (outLine stringify r :: p.1, p.2)) := by
  have hread := readInt32LE_valid parse r tail hr
  obtain ⟨h5, h16, htake, hparse⟩ := hr
  rw [procBuf.eq_def, dif_pos (by simp [List.length_append]; omega)]
  rw [hread]
  rw [dif_neg (by simp only [maxDocSize]; omega)]
  rw [dif_neg (by simp only [Int.toNat_natCast, List.length_append]; omega)]
  simp only [Int.toNat_natCast, List.take_left, List.drop_left]
  rw [if_pos hparse]
  cases procBuf parse stringify tail with
  | error e => rfl
  | ok p => rfl

/-- Extracting a whole list of leading valid records from the buffer. -/
theorem procBuf_flatten (parse : List Nat → Bool) (stringify : List Nat → List Char)
    (recs : List (List Nat)) (tail : List Nat)
    (hval : ∀ r ∈ recs, ValidRecord parse r) :
    procBuf parse stringify (recs.flatten ++ tail) =
      (procBuf parse stringify tail).map
        (fun p => (recs.map (outLine stringify) ++ p.1, p.2)) := by
  induction recs with
  | nil =>
    simp only [List.flatten_nil, List.nil_append, List.map_nil]
    cases procBuf parse stringify tail with
    | error e => rfl
    | ok p => rfl
  | cons r rs ih =>
    have hvr := hval r (List.mem_cons_self r rs)
    have hvs : ∀ x ∈ rs, ValidRecord parse x := fun x hx => hval x (List.mem_cons_of_mem r hx)
    rw [List.flatten_cons, List.append_assoc]
    rw [procBuf_cons parse stringify r (rs.flatten ++ tail) hvr, ih hvs]
    cases procBuf parse stringify tail with
    | error e => rfl
    | ok p => rfl

end BsonUtil

namespace BsonUtil

/-- Any prefix of an incomplete fragment is buffered untouched, without
error: the loop either lacks a full length prefix or reads a valid
length larger than what is buffered and waits for more input. -/
theorem procBuf_of_incomplete (parse : List Nat → Bool)
    (stringify : List Nat → List Char) (frag B : List Nat)
    (hpre : B <+: frag) (hinc : Incomplete frag) :
    procBuf parse stringify B = .ok ([], B) := by
  by_cases hB4 : B.length < 4
  · exact procBuf_short parse stringify B hB4
  · obtain ⟨s, hs⟩ := hpre
    rcases hinc with hshort | ⟨h5, h16, hlen⟩
    · have := congrArg List.length hs
      simp only [List.length_append] at this
      omega
    · have happ := readInt32LE_append B s (by omega)
      rw [hs] at happ
      have hlenB : B.length ≤ frag.length := by
        have := congrArg List.length hs
        simp only [List.length_append] at this
        omega
      rw [procBuf.eq_def, dif_pos (by omega)]
      rw [happ] at h5 h16 hlen
      rw [dif_neg (by omega)]
      rw [dif_pos (by omega)]

/-- The central invariant of the transform: on any prefix `B` of a
valid record stream, the loop consumes exactly the complete records in
`B`, emits their lines in order, and retains the incomplete remainder
in the accumulation buffer. -/
theorem procBuf_of_prefix (parse : List Nat → Bool)
    (stringify : List Nat → List Char) :
    ∀ (n : Nat) (recs : List (List Nat)) (B : List Nat),
      (∀ r ∈ recs, ValidRecord parse r) → B <+: recs.flatten → B.length ≤ n →
      ∃ k rest,
        B = (recs.take k).flatten ++ rest ∧
        procBuf parse stringify B = .ok ((recs.take k).map (outLine stringify), rest) ∧
        (recs.drop k = [] → rest = []) ∧
        ∀ r rs, recs.drop k = r :: rs → rest.length < r.length := by
  intro n
  induction n with
  | zero =>
    intro recs B hval hpre hlen
    have hB : B = [] := List.eq_nil_of_length_eq_zero (by omega)
    subst hB
    refine ⟨0, [], by simp, ?_, fun _ => rfl, ?_⟩
    · rw [procBuf_short parse stringify [] (by simp)]
      simp
    · intro r rs hdrop
      simp only [List.drop_zero] at hdrop
      have hvr := hval r (hdrop ▸ List.mem_cons_self r rs)
      have := hvr.1
      simp only [List.length_nil]
      omega
  | succ n ih =>
    intro recs B hval hpre hlen
    cases recs with
    | nil =>
      simp only [List.flatten_nil, List.prefix_nil] at hpre
      subst hpre
      refine ⟨0, [], by simp, ?_, fun _ => rfl, ?_⟩
      · rw [procBuf_short parse stringify [] (by simp)]
        simp
      · intro r rs hdrop
        simp at hdrop
    | cons r rs =>
      have hvr := hval r (List.mem_cons_self r rs)
      have hvs : ∀ x ∈ rs, ValidRecord parse x :=
        fun x hx => hval x (List.mem_cons_of_mem r hx)
      by_cases hBr : B.length < r.length
      · have hpr : B <+: r := by
          refine List.prefix_of_prefix_length_le hpre ?_ (by omega)
          rw [List.flatten_cons]
          exact List.prefix_append r rs.flatten
        refine ⟨0, B, by simp, ?_, ?_, ?_⟩
        · rw [procBuf_stop parse stringify r B hvr hpr hBr]
          simp
        · intro hdrop
          simp at hdrop
        · intro r' rs' hdrop
          simp only [List.drop_zero, List.cons.injEq] at hdrop
          rw [← hdrop.1]
          exact hBr
      · have hrB : r <+: B := by
          refine List.prefix_of_prefix_length_le ?_ hpre (by omega)
          rw [List.flatten_cons]
          exact List.prefix_append r rs.flatten
        obtain ⟨B', hB'⟩ := hrB
        have hlenB : B.length = r.length + B'.length := by
          rw [← hB', List.length_append]
        have hpre' : B' <+: rs.flatten := by
          rw [List.flatten_cons, ← hB'] at hpre
          exact (List.prefix_append_right_inj r).mp hpre
        have hlen' : B'.length ≤ n := by
          have := hvr.1
          omega
        obtain ⟨k, rest, heq, hproc, hnil, hlt⟩ := ih rs B' hvs hpre' hlen'
        refine ⟨k + 1, rest, ?_, ?_, ?_, ?_⟩
        · rw [List.take_succ_cons, List.flatten_cons, List.append_assoc, ← heq, hB']
        · rw [← hB', procBuf_cons parse stringify r B' hvr, hproc]
          rfl
        · intro hdrop
          rw [List.drop_succ_cons] at hdrop
          exact hnil hdrop
        · intro r' rs' hdrop
          rw [List.drop_succ_cons] at hdrop
          exact hlt r' rs' hdrop

end BsonUtil

namespace BsonUtil

/-- Threading a valid record stream through successive `_transform`
calls: whenever the carried-over buffer plus the remaining read chunks
spell exactly a list of valid records, and the carried-over buffer is
shorter than the next record, the run emits one line per record. -/
theorem runChunks_valid (parse : List Nat → Bool) (stringify : List Nat → List Char) :
    ∀ (chunks recs : List (List Nat)) (st : List Nat),
      (∀ r ∈ recs, ValidRecord parse r) →
      st ++ chunks.flatten = recs.flatten →
      (∀ r rs, recs = r :: rs → st.length < r.length) →
      runChunks parse stringify st chunks = .ok (recs.map (outLine stringify)) := by
  intro chunks
  induction chunks with
  | nil =>
    intro recs st hval heq hcond
    cases recs with
    | nil =>
      simp only [List.flatten_nil, List.append_nil] at heq
      subst heq
      rfl
    | cons r rs =>
      exfalso
      have hc := hcond r rs rfl
      have := congrArg List.length heq
      simp only [List.length_append, List.flatten_nil, List.length_nil,
        List.flatten_cons] at this
      omega
  | cons c cs ih =>
    intro recs st hval heq hcond
    have heqB : (st ++ c) ++ cs.flatten = recs.flatten := by
      rw [List.append_assoc, ← List.flatten_cons]
      exact heq
    have hpre : (st ++ c) <+: recs.flatten := ⟨cs.flatten, heqB⟩
    obtain ⟨k, rest, heqk, hproc, hnil, hlt⟩ :=
      procBuf_of_prefix parse stringify (st ++ c).length recs (st ++ c) hval hpre le_rfl
    have heq' : rest ++ cs.flatten = (recs.drop k).flatten := by
      have h1 : (recs.take k).flatten ++ (rest ++ cs.flatten) =
          (recs.take k).flatten ++ (recs.drop k).flatten := by
        rw [← List.append_assoc, ← heqk, heqB, ← List.flatten_append,
          List.take_append_drop]
      exact List.append_cancel_left h1
    have hval' : ∀ r ∈ recs.drop k, ValidRecord parse r :=
      fun r hr => hval r (List.mem_of_mem_drop hr)
    have hrec := ih (recs.drop k) rest hval' heq' hlt
    simp only [runChunks, hproc, hrec, Except.map]
    rw [← List.map_append, List.take_append_drop]

/-- Threading a corrupt stream: as soon as the stream's next declared
length is readable and invalid, the whole run fails with the corrupt
size, whatever the chunking. -/
theorem runChunks_corrupt (parse : List Nat → Bool) (stringify : List Nat → List Char)
    (bad tail : List Nat) (hbadlen : bad.length = 4)
    (hbad : readInt32LE bad < 5 ∨ maxDocSize < readInt32LE bad) :
    ∀ (chunks recs : List (List Nat)) (st : List Nat),
      (∀ r ∈ recs, ValidRecord parse r) →
      st ++ chunks.flatten = recs.flatten ++ (bad ++ tail) →
      (∀ r rs, recs = r :: rs → st.length < r.length) →
      (recs = [] → st.length < 4) →
      runChunks parse stringify st chunks = .error (.corrupt (readInt32LE bad)) := by
  intro chunks
  induction chunks with
  | nil =>
    intro recs st hval heq hcond hcond4
    exfalso
    cases recs with
    | nil =>
      have h4 := hcond4 rfl
      have := congrArg List.length heq
      simp only [List.length_append, List.flatten_nil, List.length_nil] at this
      omega
    | cons r rs =>
      have hc := hcond r rs rfl
      have := congrArg List.length heq
      simp only [List.length_append, List.flatten_nil, List.length_nil,
        List.flatten_cons] at this
      omega
  | cons c cs ih =>
    intro recs st hval heq hcond hcond4
    have heqB : (st ++ c) ++ cs.flatten = recs.flatten ++ (bad ++ tail) := by
      rw [List.append_assoc, ← List.flatten_cons]
      exact heq
    by_cases hle : (st ++ c).length ≤ recs.flatten.length
    · have hpre : (st ++ c) <+: recs.flatten :=
        List.prefix_of_prefix_length_le ⟨cs.flatten, heqB⟩
          (List.prefix_append _ _) hle
      obtain ⟨k, rest, heqk, hproc, hnil, hlt⟩ :=
        procBuf_of_prefix parse stringify (st ++ c).length recs (st ++ c) hval hpre le_rfl
      have heq' : rest ++ cs.flatten = (recs.drop k).flatten ++ (bad ++ tail) := by
        have h2 : (recs.take k).flatten ++ ((recs.drop k).flatten ++ (bad ++ tail)) =
            recs.flatten ++ (bad ++ tail) := by
          rw [← List.append_assoc, ← List.flatten_append, List.take_append_drop]
        have h1 : (recs.take k).flatten ++ (rest ++ cs.flatten) =
            (recs.take k).flatten ++ ((recs.drop k).flatten ++ (bad ++ tail)) := by
          rw [h2, ← List.append_assoc, ← heqk]
          exact heqB
        exact List.append_cancel_left h1
      have hval' : ∀ r ∈ recs.drop k, ValidRecord parse r :=
        fun r hr => hval r (List.mem_of_mem_drop hr)
      have hcond4' : recs.drop k = [] → rest.length < 4 := by
        intro hd
        rw [hnil hd]
        simp
      have hrec := ih (recs.drop k) rest hval' heq' hlt hcond4'
      simp only [runChunks, hproc, hrec, Except.map]
    · have hflat : recs.flatten <+: (st ++ c) :=
        List.prefix_of_prefix_length_le (List.prefix_append _ _)
          ⟨cs.flatten, heqB⟩ (by omega)
      obtain ⟨t, ht⟩ := hflat
      have htc : t ++ cs.flatten = bad ++ tail := by
        have h1 : recs.flatten ++ (t ++ cs.flatten) =
            recs.flatten ++ (bad ++ tail) := by
          rw [← List.append_assoc, ht, heqB]
        exact List.append_cancel_left h1
      by_cases ht4 : t.length < 4
      · have hproct := procBuf_short parse stringify t ht4
        have hrec := ih [] t (by intro r hr; cases hr) (by simpa using htc)
          (by intro r rs h; cases h) (fun _ => ht4)
        simp only [runChunks, ← ht,
          procBuf_flatten parse stringify recs t hval, hproct, Except.map, hrec]
      · have hpret : t <+: bad ++ tail := ⟨cs.flatten, htc⟩
        obtain ⟨s, hs⟩ := hpret
        have hr1 : readInt32LE t = readInt32LE (bad ++ tail) := by
          rw [← hs]
          exact (readInt32LE_append t s (by omega)).symm
        have hr2 : readInt32LE (bad ++ tail) = readInt32LE bad :=
          readInt32LE_append bad tail (by omega)
        have hreadt : readInt32LE t = readInt32LE bad := hr1.trans hr2
        have hproct : procBuf parse stringify t = .error (.corrupt (readInt32LE bad)) := by
          rw [procBuf.eq_def, dif_pos (by omega), hreadt, dif_pos hbad]
        simp only [runChunks, ← ht,
          procBuf_flatten parse stringify recs t hval, hproct, Except.map]

/-- Threading a stream that ends mid-record: the fragment (or a prefix
of it) is still buffered when the stream ends, and `_flush` fails. -/
theorem runChunks_truncated (parse : List Nat → Bool) (stringify : List Nat → List Char)
    (frag : List Nat) (hne : frag ≠ []) (hinc : Incomplete frag) :
    ∀ (chunks recs : List (List Nat)) (st : List Nat),
      (∀ r ∈ recs, ValidRecord parse r) →
      st ++ chunks.flatten = recs.flatten ++ frag →
      (∀ r rs, recs = r :: rs → st.length < r.length) →
      (recs = [] → st <+: frag) →
      runChunks parse stringify st chunks = .error .truncated := by
  intro chunks
  induction chunks with
  | nil =>
    intro recs st hval heq hcond hcond2
    cases recs with
    | nil =>
      simp only [List.flatten_nil, List.append_nil, List.nil_append] at heq
      subst heq
      have hpos : 0 < st.length := List.length_pos.mpr hne
      simp only [runChunks, flushBuf, if_pos hpos]
    | cons r rs =>
      exfalso
      have hc := hcond r rs rfl
      have hpos : 0 < frag.length := List.length_pos.mpr hne
      have := congrArg List.length heq
      simp only [List.length_append, List.flatten_nil, List.length_nil,
        List.flatten_cons] at this
      omega
  | cons c cs ih =>
    intro recs st hval heq hcond hcond2
    have heqB : (st ++ c) ++ cs.flatten = recs.flatten ++ frag := by
      rw [List.append_assoc, ← List.flatten_cons]
      exact heq
    by_cases hle : (st ++ c).length ≤ recs.flatten.length
    · have hpre : (st ++ c) <+: recs.flatten :=
        List.prefix_of_prefix_length_le ⟨cs.flatten, heqB⟩
          (List.prefix_append _ _) hle
      obtain ⟨k, rest, heqk, hproc, hnil, hlt⟩ :=
        procBuf_of_prefix parse stringify (st ++ c).length recs (st ++ c) hval hpre le_rfl
      have heq' : rest ++ cs.flatten = (recs.drop k).flatten ++ frag := by
        have h2 : (recs.take k).flatten ++ ((recs.drop k).flatten ++ frag) =
            recs.flatten ++ frag := by
          rw [← List.append_assoc, ← List.flatten_append, List.take_append_drop]
        have h1 : (recs.take k).flatten ++ (rest ++ cs.flatten) =
            (recs.take k).flatten ++ ((recs.drop k).flatten ++ frag) := by
          rw [h2, ← List.append_assoc, ← heqk]
          exact heqB
        exact List.append_cancel_left h1
      have hval' : ∀ r ∈ recs.drop k, ValidRecord parse r :=
        fun r hr => hval r (List.mem_of_mem_drop hr)
      have hcond2' : recs.drop k = [] → rest <+: frag := by
        intro hd
        rw [hnil hd]
        exact List.nil_prefix
      have hrec := ih (recs.drop k) rest hval' heq' hlt hcond2'
      simp only [runChunks, hproc, hrec, Except.map]
    · have hflat : recs.flatten <+: (st ++ c) :=
        List.prefix_of_prefix_length_le (List.prefix_append _ _)
          ⟨cs.flatten, heqB⟩ (by omega)
      obtain ⟨t, ht⟩ := hflat
      have htc : t ++ cs.flatten = frag := by
        have h1 : recs.flatten ++ (t ++ cs.flatten) = recs.flatten ++ frag := by
          rw [← List.append_assoc, ht, heqB]
        exact List.append_cancel_left h1
      have hpret : t <+: frag := ⟨cs.flatten, htc⟩
      have hproct := procBuf_of_incomplete parse stringify frag t hpret hinc
      have hrec := ih [] t (by intro r hr; cases hr) (by simpa using htc)
        (by intro r rs h; cases h) (fun _ => hpret)
      simp only [runChunks, ← ht,
        procBuf_flatten parse stringify recs t hval, hproct, Except.map, hrec]

end BsonUtil

namespace BsonUtil

/-- Each emitted line ends in exactly one newline once the JSON encoder
emits none (plain `JSON.stringify` never emits a raw newline). -/
theorem count_newline_outLines (stringify : List Nat → List Char)
    (recs : List (List Nat)) (hnl : ∀ r ∈ recs, '\n' ∉ stringify r) :
    ((recs.map (outLine stringify)).flatten.count '\n') = recs.length := by
  induction recs with
  | nil => simp
  | cons r rs ih =>
    have h1 : (stringify r).count '\n' = 0 :=
      List.count_eq_zero.mpr (hnl r (List.mem_cons_self r rs))
    have h2 : ∀ x ∈ rs, '\n' ∉ stringify x :=
      fun x hx => hnl x (List.mem_cons_of_mem r hx)
    simp [outLine, List.count_append, h1, ih h2]

/-- C7: for every valid length-prefixed record stream and every way of
partitioning that stream into successive read buffers, the transcoder
emits exactly one newline-terminated text record per input record, and
the emitted output depends only on the records — so it is byte-for-byte
identical across all partitionings and across repeated runs. -/
theorem transcode_one_line_per_record (parse : List Nat → Bool)
    (stringify : List Nat → List Char) (recs chunks : List (List Nat))
    (hrecs : ∀ r ∈ recs, ValidRecord parse r)
    (hpart : chunks.flatten = recs.flatten)
    (hnl : ∀ r ∈ recs, '\n' ∉ stringify r) :
    runTranscode parse stringify chunks = .ok (recs.map (outLine stringify)) ∧
    ((recs.map (outLine stringify)).flatten.count '\n') = recs.length := by
  refine ⟨?_, count_newline_outLines stringify recs hnl⟩
  refine runChunks_valid parse stringify chunks recs [] hrecs (by simpa using hpart) ?_
  intro r rs h
  have h5 := (hrecs r (by rw [h]; exact List.mem_cons_self r rs)).1
  simp only [List.length_nil]
  omega

/-- Witness for C7: the single record `[5,0,0,0,7]` split mid-prefix
across two read buffers transcodes to exactly one line. -/
theorem transcode_one_line_per_record_witness :
    runTranscode (fun _ => true) (fun _ => ['a']) [[5, 0, 0], [0, 7]] =
      .ok [['a', '\n']] ∧
    (([[5, 0, 0, 0, 7]].map (outLine (fun _ => ['a']))).flatten.count '\n') = 1 := by
  have h := transcode_one_line_per_record (fun _ => true) (fun _ => ['a'])
    [[5, 0, 0, 0, 7]] [[5, 0, 0], [0, 7]]
    (by
      intro r hr
      simp only [List.mem_singleton] at hr
      subst hr
      exact ⟨by decide, by decide, rfl, rfl⟩)
    (by decide)
    (by decide)
  exact h

/-- C5: whenever a stream consists of valid records followed by a
readable 4-byte declared length outside `[5, 16*1024*1024]` (at any
record boundary, under any chunking), the transcode fails with the
corrupt-size error. -/
theorem corrupt_length_always_fails (parse : List Nat → Bool)
    (stringify : List Nat → List Char) (recs : List (List Nat))
    (bad tail : List Nat) (chunks : List (List Nat))
    (hrecs : ∀ r ∈ recs, ValidRecord parse r)
    (hbadlen : bad.length = 4)
    (hbad : readInt32LE bad < 5 ∨ maxDocSize < readInt32LE bad)
    (hpart : chunks.flatten = recs.flatten ++ (bad ++ tail)) :
    runTranscode parse stringify chunks = .error (.corrupt (readInt32LE bad)) := by
  refine runChunks_corrupt parse stringify bad tail hbadlen hbad chunks recs []
    hrecs (by simpa using hpart) ?_ (fun _ => by simp)
  intro r rs h
  have h5 := (hrecs r (by rw [h]; exact List.mem_cons_self r rs)).1
  simp only [List.length_nil]
  omega

/-- Witness for C5: one valid record, then the invalid declared length
1, split across read buffers. -/
theorem corrupt_length_always_fails_witness :
    runTranscode (fun _ => true) (fun _ => ['a']) [[5, 0, 0, 0, 7], [1, 0], [0, 0]] =
      .error (.corrupt 1) := by
  have h := corrupt_length_always_fails (fun _ => true) (fun _ => ['a'])
    [[5, 0, 0, 0, 7]] [1, 0, 0, 0] [] [[5, 0, 0, 0, 7], [1, 0], [0, 0]]
    (by
      intro r hr
      simp only [List.mem_singleton] at hr
      subst hr
      exact ⟨by decide, by decide, rfl, rfl⟩)
    (by decide)
    (by decide)
    (by decide)
  exact h

/-- C6: whenever a stream consists of valid records followed by a
non-empty truncated fragment (partial length prefix, or declared length
exceeding the remaining bytes), the transcode fails at end-of-input
with the truncated-stream error instead of dropping the bytes. -/
theorem truncated_stream_always_fails (parse : List Nat → Bool)
    (stringify : List Nat → List Char) (recs : List (List Nat))
    (frag : List Nat) (chunks : List (List Nat))
    (hrecs : ∀ r ∈ recs, ValidRecord parse r)
    (hne : frag ≠ []) (hinc : Incomplete frag)
    (hpart : chunks.flatten = recs.flatten ++ frag) :
    runTranscode parse stringify chunks = .error .truncated := by
  refine runChunks_truncated parse stringify frag hne hinc chunks recs []
    hrecs (by simpa using hpart) ?_ (fun _ => List.nil_prefix)
  intro r rs h
  have h5 := (hrecs r (by rw [h]; exact List.mem_cons_self r rs)).1
  simp only [List.length_nil]
  omega

/-- Witness for C6: one valid record followed by a record declaring 9
bytes of which only 5 arrive. -/
theorem truncated_stream_always_fails_witness :
    runTranscode (fun _ => true) (fun _ => ['a']) [[5, 0, 0, 0, 7, 9, 0], [0, 0, 1]] =
      .error .truncated := by
  have h := truncated_stream_always_fails (fun _ => true) (fun _ => ['a'])
    [[5, 0, 0, 0, 7]] [9, 0, 0, 0, 1] [[5, 0, 0, 0, 7, 9, 0], [0, 0, 1]]
    (by
      intro r hr
      simp only [List.mem_singleton] at hr
      subst hr
      exact ⟨by decide, by decide, rfl, rfl⟩)
    (by decide)
    (Or.inr ⟨by decide, by decide, by decide⟩)
    (by decide)
  exact h

/-- The chunking loop never returns an empty file list. -/
theorem chunkGo_ne_nil {α : Type} (cs : Nat) :
    ∀ (us : List (List α)) (cur : List (List α)) (size : Nat),
      chunkGo cs cur size us ≠ [] := by
  intro us
  induction us with
  | nil => intro cur size; simp [chunkGo]
  | cons u us ih =>
    intro cur size
    by_cases h : cs ≤ size
    · simp [chunkGo, h]
    · simp only [chunkGo, if_neg h]
      exact ih _ _

/-- Invariant of the chunking loop: provided `size` is the byte size of
the currently open file, every file closed by the loop had already
reached the threshold, and the files partition the unit stream in
order. -/
theorem chunkGo_spec {α : Type} (cs : Nat) :
    ∀ (us : List (List α)) (cur : List (List α)) (size : Nat),
      size = fileSize cur →
      (∀ f ∈ (chunkGo cs cur size us).dropLast, cs ≤ fileSize f) ∧
      (chunkGo cs cur size us).flatten = cur ++ us := by
  intro us
  induction us with
  | nil =>
    intro cur size hsz
    constructor
    · simp [chunkGo]
    · simp [chunkGo]
  | cons u us ih =>
    intro cur size hsz
    by_cases h : cs ≤ size
    · obtain ⟨b, t, hbt⟩ := List.exists_cons_of_ne_nil (chunkGo_ne_nil cs us [u] u.length)
      have ihs := ih [u] u.length (by simp [fileSize])
      have hstep : chunkGo cs cur size (u :: us) = cur :: chunkGo cs [u] u.length us := by
        simp [chunkGo, h]
      constructor
      · intro f hf
        rw [hstep, hbt] at hf
        have hdl : (cur :: b :: t).dropLast = cur :: (b :: t).dropLast := rfl
        rw [hdl] at hf
        rcases List.mem_cons.mp hf with hf1 | hf2
        · subst hf1
          omega
        · exact ihs.1 f (by rw [hbt]; exact hf2)
      · rw [hstep, List.flatten_cons, ihs.2]
        rfl
    · have ihs := ih (cur ++ [u]) (size + u.length) (by simp [fileSize, hsz])
      constructor
      · intro f hf
        simp only [chunkGo, if_neg h] at hf
        exact ihs.1 f hf
      · simp only [chunkGo, if_neg h, ihs.2, List.append_assoc]
        rfl

/-- C8: every chunk file the Chunk Writer produces, except possibly the
final one, has byte size at least the configured threshold; and files
are composed of whole units in stream order — a new file starts only at
a unit boundary, never mid-unit. -/
theorem chunk_writer_threshold {α : Type} (chunkSize : Nat) (units : List (List α)) :
    (∀ f ∈ (chunkFiles chunkSize units).dropLast, chunkSize ≤ fileSize f) ∧
    (chunkFiles chunkSize units).flatten = units := by
  cases units with
  | nil => simp [chunkFiles]
  | cons u us =>
    have h := chunkGo_spec chunkSize us [u] u.length (by simp [fileSize])
    exact ⟨h.1, by simpa using h.2⟩

/-- Witness for C8 on a concrete run: the first produced file reaches
the threshold 2, and the files partition the three units. -/
theorem chunk_writer_threshold_witness :
    2 ≤ fileSize [[1], [2, 3]] ∧
    (chunkFiles 2 [([1] : List Nat), [2, 3], [4]]).flatten = [[1], [2, 3], [4]] := by
  have h := chunk_writer_threshold 2 [([1] : List Nat), [2, 3], [4]]
  exact ⟨h.1 [[1], [2, 3]] (by decide), h.2⟩

/-- C10: a zero-byte input stream (zero read chunks, hence zero
records) converts successfully into an empty list of chunk paths and no
chunk files at all. -/
theorem convert_empty_input (parse : List Nat → Bool)
    (stringify : List Nat → List Char) (chunkSize : Nat)
    (outputDir baseName : String) :
    convertBsonToJsonlChunks parse stringify chunkSize outputDir baseName [] =
      .ok ([], []) := rfl

end BsonUtil

/-!
## Lemmas about the remote store client
-/

namespace B2Service

/-- Stepping the retry loop through `N` leading transient failures to a
success at attempt index `r + N`. -/
theorem uploadGo_ok {R : Type} (att : Nat → Except UploadErrKind R) (v : R) :
    ∀ (N r fuel : Nat) (lastError : Option UploadErrKind),
      (∀ i, r ≤ i → i < r + N → ∃ e, att i = .error e ∧ handleUploadError e = true) →
      att (r + N) = .ok v → N < fuel →
      uploadGo att r fuel lastError = (.ok v, r + N + 1) := by
  intro N
  induction N with
  | zero =>
    intro r fuel lastError hfail hok hfuel
    rw [Nat.add_zero] at hok
    cases fuel with
    | zero => omega
    | succ f => simp [uploadGo, hok]
  | succ N ih =>
    intro r fuel lastError hfail hok hfuel
    cases fuel with
    | zero => omega
    | succ f =>
      obtain ⟨e, he, hre⟩ := hfail r le_rfl (by omega)
      simp only [uploadGo, he, hre, if_true]
      rw [if_neg (by omega)]
      rw [show r + (N + 1) + 1 = (r + 1) + N + 1 by omega]
      refine ih (r + 1) f (some e) (fun i hi1 hi2 => hfail i (by omega) (by omega)) ?_ (by omega)
      rw [show r + 1 + N = r + (N + 1) by omega]
      exact hok

/-- Stepping the retry loop through nothing but transient failures:
the loop consumes its whole fuel, making one attempt per iteration, and
exits through the `break` into the final `UploadError` throw. -/
theorem uploadGo_exhaust {R : Type} (att : Nat → Except UploadErrKind R) (maxRetries : Nat) :
    ∀ (fuel r : Nat) (lastError : Option UploadErrKind),
      r + fuel = maxRetries + 1 → 1 ≤ fuel →
      (∀ i, r ≤ i → i ≤ maxRetries → ∃ e, att i = .error e ∧ handleUploadError e = true) →
      ∃ e, att maxRetries = .error e ∧
        uploadGo att r fuel lastError = (.exhausted (some e), maxRetries + 1) := by
  intro fuel
  induction fuel with
  | zero =>
    intro r lastError h1 h2 hfail
    omega
  | succ f ih =>
    intro r lastError h1 h2 hfail
    obtain ⟨e, he, hre⟩ := hfail r le_rfl (by omega)
    by_cases hf : f = 0
    · subst hf
      have hr : r = maxRetries := by omega
      subst hr
      exact ⟨e, he, by simp [uploadGo, he, hre]⟩
    · obtain ⟨e', he', hgo⟩ := ih (r + 1) (some e) (by omega) (by omega)
        (fun i hi1 hi2 => hfail i (by omega) hi2)
      refine ⟨e', he', ?_⟩
      simp only [uploadGo, he, hre, if_true]
      rw [if_neg hf]
      exact hgo

/-- C1 counterexample: take `maxRetries = 1` and an attempt schedule
with exactly `maxRetries` (= 1) consecutive transient failures followed
by a success.  The claim says the call fails with `UploadError` after
those `maxRetries` attempts with no further attempt; the code instead
runs one more attempt (the loop condition is `retries <= maxRetries`),
which succeeds, so the call returns the success after 2 attempts. -/
theorem upload_retry_counterexample :
    uploadFile (fun n => if n = 0 then .error .network else (.ok 0 : Except UploadErrKind Nat)) 1 =
      (.ok 0, 2) := rfl

/-- C1 (amended): with `N ≤ maxRetries` consecutive transient failures
followed by a success, `uploadFile` returns the success result after
exactly `N + 1` underlying attempts; with `maxRetries + 1` consecutive
transient failures it fails with `UploadError` (carrying the last
error) after exactly `maxRetries + 1` attempts, and no attempt beyond
those is made. -/
theorem upload_retry_behaviour {R : Type} (att : Nat → Except UploadErrKind R)
    (maxRetries : Nat) :
    (∀ (N : Nat) (v : R), N ≤ maxRetries →
      (∀ i, i < N → ∃ e, att i = .error e ∧ handleUploadError e = true) →
      att N = .ok v →
      uploadFile att maxRetries = (.ok v, N + 1)) ∧
    ((∀ i, i ≤ maxRetries → ∃ e, att i = .error e ∧ handleUploadError e = true) →
      ∃ e, att maxRetries = .error e ∧
        uploadFile att maxRetries = (.exhausted (some e), maxRetries + 1)) := by
  constructor
  · intro N v hN hfail hok
    have h := uploadGo_ok att v N 0 (maxRetries + 1) none
      (fun i h0 hi => hfail i (by omega)) (by simpa using hok) (by omega)
    simpa using h
  · intro hfail
    exact uploadGo_exhaust att maxRetries (maxRetries + 1) 0 none (by omega) (by omega)
      (fun i h0 hi => hfail i hi)

/-- Witness for the amended C1, on both branches: one transient failure
then success under `maxRetries = 2` gives the success after 2 attempts;
all-transient failures under `maxRetries = 1` give `UploadError` after
2 attempts. -/
theorem upload_retry_behaviour_witness :
    uploadFile (fun n => if n = 0 then .error (.serverError 503) else (.ok 3 : Except UploadErrKind Nat)) 2 =
      (.ok 3, 2) ∧
    uploadFile (fun _ => (.error .network : Except UploadErrKind Nat)) 1 =
      (.exhausted (some .network), 2) := by
  constructor
  · exact (upload_retry_behaviour
      (fun n => if n = 0 then .error (.serverError 503) else (.ok 3 : Except UploadErrKind Nat)) 2).1
      1 3 (by omega)
      (by
        intro i hi
        interval_cases i
        exact ⟨.serverError 503, rfl, rfl⟩)
      rfl
  · obtain ⟨e, he, hgo⟩ := (upload_retry_behaviour
      (fun _ => (.error .network : Except UploadErrKind Nat)) 1).2
      (fun i _ => ⟨.network, rfl, rfl⟩)
    simp only [Except.error.injEq] at he
    rw [← he] at hgo
    exact hgo

/-- C2 (code bug): a `B2Service` constructed without a `maxRetries`
argument ends up with `maxRetries = 3`, not the 5 that the field
initializer (and its `Increased from 3 to 5` comment) promises: the
constructor's stale parameter default overwrites the field. -/
theorem default_maxRetries_is_three :
    constructedMaxRetries none = 3 ∧ constructedMaxRetries none ≠ maxRetriesFieldInit := by
  constructor
  · rfl
  · decide

/-- C4: a 250 MiB file exceeds the 100 MiB single-shot threshold, so it
is uploaded as a large file in exactly 3 parts of 100 MiB, 100 MiB and
50 MiB, issued in strictly ascending part-number order, and the session
is finished with exactly the 3 per-part digests in that same ascending
order. -/
theorem upload_250MiB_three_parts {Sh : Type} (sha : Nat → Nat → Sh) :
    uploadFilePlan sha (250 * 1024 * 1024) =
      .large
        [⟨1, 100 * 1024 * 1024, sha 0 (100 * 1024 * 1024)⟩,
         ⟨2, 100 * 1024 * 1024, sha (100 * 1024 * 1024) (200 * 1024 * 1024)⟩,
         ⟨3, 50 * 1024 * 1024, sha (200 * 1024 * 1024) (250 * 1024 * 1024)⟩]
        [sha 0 (100 * 1024 * 1024), sha (100 * 1024 * 1024) (200 * 1024 * 1024),
         sha (200 * 1024 * 1024) (250 * 1024 * 1024)] := rfl

/-- Unrolling the pagination loop over a script of successful pages
that each carry a continuation cursor, for arbitrary accumulator
state. -/
theorem listGo_spec {F : Type} :
    ∀ (pre : List (List F × String)) (cursor : Option String) (acc : List F)
      (reqs : List ListReq),
      (∀ lastPage : List F,
        listGo ((pre.map fun p => Except.ok (p.1, some p.2)) ++ [Except.ok (lastPage, none)])
            cursor acc reqs =
          (.ok (acc ++ ((pre.map Prod.fst).flatten ++ lastPage)),
           reqs ++ ((cursor :: pre.map (fun p => some p.2)).map fun c => ⟨c, 1000⟩))) ∧
      (∀ rest : List (Except Unit (List F × Option String)),
        listGo ((pre.map fun p => Except.ok (p.1, some p.2)) ++ Except.error () :: rest)
            cursor acc reqs =
          (.listError,
           reqs ++ ((cursor :: pre.map (fun p => some p.2)).map fun c => ⟨c, 1000⟩))) := by
  intro pre
  induction pre with
  | nil =>
    intro cursor acc reqs
    constructor
    · intro lastPage
      simp [listGo]
    · intro rest
      simp [listGo]
  | cons p ps ih =>
    intro cursor acc reqs
    constructor
    · intro lastPage
      simp only [List.map_cons, List.cons_append, listGo, List.append_eq]
      rw [(ih (some p.2) (acc ++ p.1) (reqs ++ [ListReq.mk cursor 1000])).1 lastPage]
      simp [List.append_assoc]
    · intro rest
      simp only [List.map_cons, List.cons_append, listGo, List.append_eq]
      rw [(ih (some p.2) (acc ++ p.1) (reqs ++ [ListReq.mk cursor 1000])).2 rest]
      simp [List.append_assoc]

/-- C9: `listExistingFiles` repeatedly requests pages with
`maxFileCount = 1000`, sending first a `null` cursor and then each
returned continuation cursor, until a page carries no cursor, and
returns the concatenation of all pages in order; if any page request
fails, the call fails with `ListError` and no partial listing is ever
returned. -/
theorem listExistingFiles_pagination {F : Type} (pre : List (List F × String))
    (lastPage : List F) :
    (listExistingFiles
        ((pre.map fun p => Except.ok (p.1, some p.2)) ++ [Except.ok (lastPage, none)]) =
      (.ok ((pre.map Prod.fst).flatten ++ lastPage),
       (none :: pre.map (fun p => some p.2)).map fun c => ⟨c, 1000⟩)) ∧
    (∀ rest : List (Except Unit (List F × Option String)),
      listExistingFiles
          ((pre.map fun p => Except.ok (p.1, some p.2)) ++ Except.error () :: rest) =
        (.listError, (none :: pre.map (fun p => some p.2)).map fun c => ⟨c, 1000⟩)) := by
  constructor
  · have h := (listGo_spec pre none [] []).1 lastPage
    simpa [listExistingFiles] using h
  · intro rest
    have h := (listGo_spec pre none [] []).2 rest
    simpa [listExistingFiles] using h

end B2Service

/-!
## Lemmas about the diff engine
-/

namespace BackupService

/-- `split` never returns an empty array. -/
theorem splitSlashAux_ne_nil (l : List Char) : ∀ acc : List Char,
    splitSlashAux l acc ≠ [] := by
  induction l with
  | nil => intro acc; simp [splitSlashAux]
  | cons c t ih =>
    intro acc
    by_cases hc : c = '/'
    · simp [splitSlashAux, hc]
    · simp only [splitSlashAux, if_neg hc]
      exact ih (c :: acc)

/-- The first segment of a split is the pending accumulator followed by
the characters before the first slash. -/
theorem splitSlashAux_headI (l : List Char) : ∀ acc : List Char,
    (splitSlashAux l acc).headI = acc.reverse ++ l.takeWhile (· ≠ '/') := by
  induction l with
  | nil => intro acc; simp [splitSlashAux]
  | cons c t ih =>
    intro acc
    by_cases hc : c = '/'
    · subst hc
      simp [splitSlashAux, List.takeWhile_cons]
    · simp only [splitSlashAux, if_neg hc, List.takeWhile_cons]
      rw [ih (c :: acc)]
      simp [hc]

/-- A split has more than one part exactly when the string contains a
slash. -/
theorem one_lt_splitSlashAux_length (l : List Char) : ∀ acc : List Char,
    (1 < (splitSlashAux l acc).length) ↔ '/' ∈ l := by
  induction l with
  | nil => intro acc; simp [splitSlashAux]
  | cons c t ih =>
    intro acc
    by_cases hc : c = '/'
    · subst hc
      have hpos : 0 < (splitSlashAux t []).length :=
        List.length_pos.mpr (splitSlashAux_ne_nil t [])
      have hstep : splitSlashAux ('/' :: t) acc = acc.reverse :: splitSlashAux t [] := by
        simp [splitSlashAux]
      rw [hstep]
      refine iff_of_true ?_ (List.mem_cons_self _ _)
      simp only [List.length_cons]
      omega
    · simp only [splitSlashAux, if_neg hc, List.mem_cons]
      rw [ih (c :: acc)]
      constructor
      · intro h
        exact Or.inr h
      · rintro (h | h)
        · exact absurd h.symm hc
        · exact h

/-- Bridge between the code's split-based folder check and the spec's
wording: for a slash-free base name `b`, a remote name splits into more
than one part with first part `b` exactly when it begins with `b ++ "/"`. -/
theorem takeWhile_slash_iff : ∀ b : List Char, '/' ∉ b → ∀ r : List Char,
    ('/' ∈ r ∧ r.takeWhile (· ≠ '/') = b) ↔ (b ++ ['/']) <+: r := by
  intro b
  induction b with
  | nil =>
    intro _ r
    cases r with
    | nil => simp
    | cons c t =>
      by_cases hc : c = '/'
      · subst hc
        simp [List.takeWhile_cons, List.cons_prefix_cons]
      · simp [List.takeWhile_cons, hc, List.cons_prefix_cons, Ne.symm hc]
  | cons a b' ih =>
    intro hb r
    have ha : a ≠ '/' := by
      intro h
      exact hb (by rw [h]; exact List.mem_cons_self _ _)
    have hb' : ('/' : Char) ∉ b' := fun h => hb (List.mem_cons_of_mem a h)
    cases r with
    | nil => simp
    | cons c t =>
      rw [List.cons_append, List.cons_prefix_cons]
      by_cases hc : c = '/'
      · subst hc
        constructor
        · rintro ⟨-, htw⟩
          rw [List.takeWhile_cons] at htw
          simp at htw
        · rintro ⟨hac, -⟩
          exact absurd hac ha
      · constructor
        · rintro ⟨hmem, htw⟩
          rw [List.takeWhile_cons, if_pos (by simp [hc])] at htw
          injection htw with h1 h2
          have hmem' : '/' ∈ t := by
            rcases List.mem_cons.mp hmem with h | h
            · exact absurd h.symm hc
            · exact h
          exact ⟨h1.symm, (ih hb' t).mp ⟨hmem', h2⟩⟩
        · rintro ⟨hac, hpre'⟩
          obtain ⟨hmem, htw⟩ := (ih hb' t).mpr hpre'
          subst hac
          refine ⟨List.mem_cons_of_mem _ hmem, ?_⟩
          rw [List.takeWhile_cons, if_pos (by simp [hc]), htw]

/-- Membership in the `remoteFolders` set: exactly the first segments
of remote names that split into more than one part. -/
theorem mem_remoteFolders (remotes : List Name) (b : Name) :
    b ∈ remoteFolders remotes ↔
      ∃ r ∈ remotes, 1 < (splitSlash r).length ∧ (splitSlash r).headI = b := by
  have key : ∀ (rs : List Name) (acc : List Name),
      (b ∈ rs.foldl (fun acc r =>
        if 1 < (splitSlash r).length then acc ++ [(splitSlash r).headI] else acc) acc ↔
      (b ∈ acc ∨ ∃ r ∈ rs, 1 < (splitSlash r).length ∧ (splitSlash r).headI = b)) := by
    intro rs
    induction rs with
    | nil => intro acc; simp
    | cons r rs ih =>
      intro acc
      rw [List.foldl_cons]
      by_cases h : 1 < (splitSlash r).length
      · rw [if_pos h, ih]
        constructor
        · rintro (hb | ⟨r', hr', hcond⟩)
          · rcases List.mem_append.mp hb with hb | hb
            · exact Or.inl hb
            · rw [List.mem_singleton] at hb
              exact Or.inr ⟨r, List.mem_cons_self r rs, h, hb.symm⟩
          · exact Or.inr ⟨r', List.mem_cons_of_mem r hr', hcond⟩
        · rintro (hb | ⟨r', hr', hcond⟩)
          · exact Or.inl (List.mem_append.mpr (Or.inl hb))
          · rcases List.mem_cons.mp hr' with h1 | h1
            · subst h1
              exact Or.inl (List.mem_append.mpr
                (Or.inr (List.mem_singleton.mpr hcond.2.symm)))
            · exact Or.inr ⟨r', h1, hcond⟩
      · rw [if_neg h, ih]
        constructor
        · rintro (hb | ⟨r', hr', hcond⟩)
          · exact Or.inl hb
          · exact Or.inr ⟨r', List.mem_cons_of_mem r hr', hcond⟩
        · rintro (hb | ⟨r', hr', hcond⟩)
          · exact Or.inl hb
          · rcases List.mem_cons.mp hr' with h1 | h1
            · subst h1
              exact absurd hcond.1 h
            · exact Or.inr ⟨r', h1, hcond⟩
  rw [remoteFolders, key remotes []]
  simp

/-- Stripping the `.bson` extension introduces no slash. -/
theorem slash_not_mem_bsonBase (n : Name) (h : '/' ∉ n) : '/' ∉ bsonBase n := by
  rw [bsonBase]
  by_cases hc : n ≠ bsonExt ∧ bsonExt <:+ n
  · rw [if_pos hc]
    intro hmem
    exact h (List.mem_of_mem_take hmem)
  · rw [if_neg hc]
    exact h

/-- C3: the diff is all-or-nothing per base name.  For a local file
name (slash-free, as produced by `readdir`): if no remote object name
equals it and no remote object name begins with `{baseName}/`, the file
is returned as needing upload; and if any remote object name begins
with `{baseName}/`, the file is not returned — regardless of which
individual chunks exist remotely. -/
theorem getNewFiles_allOrNothing (locals remotes : List Name) (n : Name)
    (hn : n ∈ locals) (hslash : '/' ∉ n) :
    ((n ∉ remotes ∧ ∀ r ∈ remotes, ¬ (bsonBase n ++ ['/']) <+: r) →
        n ∈ getNewFiles locals remotes) ∧
    ((∃ r ∈ remotes, (bsonBase n ++ ['/']) <+: r) →
        n ∉ getNewFiles locals remotes) := by
  have hbase := slash_not_mem_bsonBase n hslash
  have hfold : bsonBase n ∈ remoteFolders remotes ↔
      ∃ r ∈ remotes, (bsonBase n ++ ['/']) <+: r := by
    rw [mem_remoteFolders]
    constructor
    · rintro ⟨r, hr, hlen, hhead⟩
      refine ⟨r, hr, ?_⟩
      refine (takeWhile_slash_iff (bsonBase n) hbase r).mp ⟨?_, ?_⟩
      · exact (one_lt_splitSlashAux_length r []).mp hlen
      · have h1 := splitSlashAux_headI r []
        simp only [List.reverse_nil, List.nil_append] at h1
        rw [splitSlash] at hhead
        rw [← h1]
        exact hhead
    · rintro ⟨r, hr, hpre⟩
      obtain ⟨hmem, htw⟩ := (takeWhile_slash_iff (bsonBase n) hbase r).mpr hpre
      refine ⟨r, hr, ?_, ?_⟩
      · exact (one_lt_splitSlashAux_length r []).mpr hmem
      · have h1 := splitSlashAux_headI r []
        simp only [List.reverse_nil, List.nil_append] at h1
        rw [splitSlash, h1]
        exact htw
  constructor
  · rintro ⟨h1, h2⟩
    rw [getNewFiles, List.mem_filter]
    refine ⟨hn, ?_⟩
    rw [Bool.and_eq_true, decide_eq_true_iff, decide_eq_true_iff]
    refine ⟨h1, fun hmem => ?_⟩
    obtain ⟨r, hr, hpre⟩ := hfold.mp hmem
    exact h2 r hr hpre
  · rintro ⟨r, hr, hpre⟩ hmem
    rw [getNewFiles, List.mem_filter, Bool.and_eq_true, decide_eq_true_iff,
      decide_eq_true_iff] at hmem
    exact hmem.2.2 (hfold.mpr ⟨r, hr, hpre⟩)

/-- Witness for C3: `a.bson` is returned when the remote listing is
empty, and is suppressed by the remote object `a/x` (folder presence),
with base name `a`. -/
theorem getNewFiles_allOrNothing_witness :
    (['a', '.', 'b', 's', 'o', 'n'] ∈
      getNewFiles [['a', '.', 'b', 's', 'o', 'n']] []) ∧
    (['a', '.', 'b', 's', 'o', 'n'] ∉
      getNewFiles [['a', '.', 'b', 's', 'o', 'n']] [['a', '/', 'x']]) := by
  constructor
  · exact (getNewFiles_allOrNothing [['a', '.', 'b', 's', 'o', 'n']] []
      ['a', '.', 'b', 's', 'o', 'n'] (by decide) (by decide)).1
      ⟨by decide, fun r hr => absurd hr (List.not_mem_nil r)⟩
  · exact (getNewFiles_allOrNothing [['a', '.', 'b', 's', 'o', 'n']] [['a', '/', 'x']]
      ['a', '.', 'b', 's', 'o', 'n'] (by decide) (by decide)).2
      ⟨['a', '/', 'x'], by decide, by decide⟩

end BackupService
